import Mathlib

/-!
Verification of the batch-GCD pipeline (`src/batchgcd.cpp`).

The driver `main` in `batchgcd.cpp` runs three parts:
  (A) build the product tree over the input moduli (`product_tree`);
  (B) compute per-leaf remainders remᵢ = Z mod Xᵢ² (`remainders_squares`);
  (C) for each leaf, R[i] := gcd(R[i] / X[i], X[i]), then classify each leaf
      in the results loop as clean / false positive (anomaly) / duplicate /
      compromised.

Parts (A) and (B) are implemented in `utils.hpp`, which is not part of the
available sources; their definitions below are modelled from the spec
(§4.2 ProductTreeBuilder, §4.3 RemainderTreePropagator).  Part (C) and the
results loop are in `batchgcd.cpp` itself and are embedded directly.

All values are arbitrary-precision nonnegative integers (mpz_class values
produced by the pipeline are never negative), embedded as `Nat`; GMP's
truncated division and mod agree with `Nat.div` / `Nat.mod` on nonnegative
operands, and `mpz_gcd` agrees with `Nat.gcd`.
-/

namespace BatchGCD

/-- Modelled from the spec: one bottom-up step of the product tree
(§4.2 / §3 Tree Level): entry j of the next level is the product of entries
2j and 2j+1; an unpaired final entry is carried forward unchanged. -/
def step : List Nat → List Nat
  | [] => []
  | [x] => [x]
  | x :: y :: rest => (x * y) :: step rest

theorem step_length : ∀ l : List Nat, (step l).length = (l.length + 1) / 2
  | [] => rfl
  | [_] => by simp [step]
  | _ :: _ :: rest => by
      simp only [step, List.length_cons, step_length rest]
      omega

theorem step_prod : ∀ l : List Nat, (step l).prod = l.prod
  | [] => rfl
  | [_] => rfl
  | x :: y :: rest => by
      simp only [step, List.prod_cons, step_prod rest, mul_assoc]

theorem step_pos : ∀ l : List Nat, (∀ x ∈ l, 0 < x) → ∀ x ∈ step l, 0 < x
  | [], _ => by simp [step]
  | [x], h => by simpa [step] using h
  | x :: y :: rest, h => by
      intro z hz
      simp only [step, List.mem_cons] at hz
      rcases hz with rfl | hz
      · exact Nat.mul_pos (h x (by simp)) (h y (by simp))
      · exact step_pos rest (fun a ha => h a (by simp [ha])) z hz

/-- Modelled from the spec: `product_tree` (declared in `utils.hpp`, body not
in the available sources) builds levels bottom-up until a level of size 1 is
reached and returns the tree height H (§4.2). -/
def product_tree (l : List Nat) : Nat :=
  if _h : l.length ≤ 1 then 0 else product_tree (step l) + 1
termination_by l.length
decreasing_by
  rw [step_length]; omega

/-- Modelled from the spec: the root level of the product tree — the first
level of size ≤ 1 reached by repeated `step` (§3 Tree Level). -/
def tree_root (l : List Nat) : List Nat :=
  if _h : l.length ≤ 1 then l else tree_root (step l)
termination_by l.length
decreasing_by
  rw [step_length]; omega

/-- Modelled from the spec: one top-down step of the remainder tree (§4.3):
the running remainder of child 2j (resp. 2j+1) at the lower level is the
parent j's running remainder reduced mod the child's own value squared. -/
def remStep : List Nat → List Nat → List Nat
  | r :: rs, x :: y :: rest => (r % (x * x)) :: (r % (y * y)) :: remStep rs rest
  | r :: _, [x] => [r % (x * x)]
  | _, _ => []

/-- Modelled from the spec: `remainders_squares` (declared in `utils.hpp`,
body not in the available sources).  Per §3/§4.3 the running value at the
root level is seeded with the root value Z itself, and descending each level
every node's remainder is its parent's remainder mod the node's value
squared; the result is the list of leaf remainders. -/
def remainders_squares (l : List Nat) : List Nat :=
  if _h : l.length ≤ 1 then l else remStep (remainders_squares (step l)) l
termination_by l.length
decreasing_by
  rw [step_length]; omega

/-- Per-leaf classification (§3 Classification Result); `compromised` carries
the two recovered factors. -/
inductive Classification where
  | clean
  | anomaly
  | duplicate
  | compromised (factor_p factor_q : Nat)
deriving DecidableEq

/-- Part (C) of `main` (batchgcd.cpp lines 108–111): per leaf,
R[i] := gcd(R[i] / X[i], X[i]). -/
def finalizeLeaf (r x : Nat) : Nat := Nat.gcd (r / x) x

/-- Part (C) applied across the leaf arrays. -/
def partC (rs xs : List Nat) : List Nat :=
  (rs.zip xs).map fun p => finalizeLeaf p.1 p.2

/-- One iteration of the results loop (batchgcd.cpp lines 137–151), acting on
the post-part-(C) value r = R[i] and the modulus x = input_moduli[i]:
if r ≠ 1 then (false positive if r = 0 or x mod r ≠ 0, else duplicate if
r = x, else compromised with factors r and x / r), else clean. -/
def classify (r x : Nat) : Classification :=
  if r ≠ 1 then
    if r = 0 ∨ x % r ≠ 0 then Classification.anomaly
    else if r = x then Classification.duplicate
    else Classification.compromised r (x / r)
  else Classification.clean

/-- The results loop over all leaves (batchgcd.cpp lines 134–158). -/
def classifyLoop (rs xs : List Nat) : List Classification :=
  (rs.zip xs).map fun p => classify p.1 p.2

/-- The `false_positives` counter of the results loop: the number of leaves
hitting the anomaly branch (batchgcd.cpp lines 138–140). -/
def false_positives (rs xs : List Nat) : Nat :=
  (rs.zip xs).countP fun p => p.1 ≠ 1 ∧ (p.1 = 0 ∨ p.2 % p.1 ≠ 0)

/-- The whole pipeline: remainder tree (part B), part (C), results loop. -/
def run_batchgcd (l : List Nat) : List Classification :=
  classifyLoop (partC (remainders_squares l) l) l

/-- Input base selection (batchgcd.cpp lines 63–65): base = 16, overridden
to 10 when the base10 flag is set. -/
def base (base_10_flag : Bool) : Nat :=
  if base_10_flag then 10 else 16

/-! Evaluation lemmas for the recursive tree definitions. -/

theorem remainders_squares_single (a : Nat) : remainders_squares [a] = [a] := by
  rw [remainders_squares]; simp

theorem remainders_squares_pair (a b : Nat) :
    remainders_squares [a, b] = [a * b % (a * a), a * b % (b * b)] := by
  rw [remainders_squares]
  simp only [List.length_cons, List.length_nil, step]
  rw [remainders_squares]
  simp [remStep]

theorem product_tree_single (a : Nat) : product_tree [a] = 0 := by
  rw [product_tree]; simp

/-! The root of the product tree is the product of the leaves. -/

theorem tree_root_eq (l : List Nat) : l ≠ [] → tree_root l = [l.prod] := by
  induction l using tree_root.induct with
  | case1 l hlen =>
      intro hne
      have h1 : l.length = 1 := by
        have := List.length_pos.mpr hne
        omega
      obtain ⟨a, rfl⟩ := List.length_eq_one.mp h1
      rw [tree_root]
      simp
  | case2 l hlen ih =>
      intro _
      have hstep : step l ≠ [] := by
        have : (step l).length = (l.length + 1) / 2 := step_length l
        have : 0 < (step l).length := by omega
        exact List.length_pos.mp this
      rw [tree_root]
      simp only [hlen, dite_false]
      rw [ih hstep, step_prod]

/-! Classification facts.  For a positive modulus x, the value computed in
part (C) is a gcd against x, hence at least 1 and a divisor of x, so the
false-positive branch of the results loop cannot fire. -/

theorem classify_gcd (q x : Nat) (hx : 0 < x) :
    classify (Nat.gcd q x) x =
      if Nat.gcd q x = 1 then Classification.clean
      else if Nat.gcd q x = x then Classification.duplicate
      else Classification.compromised (Nat.gcd q x) (x / Nat.gcd q x) := by
  have hpos : 0 < Nat.gcd q x := Nat.gcd_pos_of_pos_right _ hx
  have hmod : x % Nat.gcd q x = 0 := Nat.mod_eq_zero_of_dvd (Nat.gcd_dvd_right q x)
  unfold classify
  rcases eq_or_ne (Nat.gcd q x) 1 with h1 | h1
  · simp [h1]
  · simp [h1, hmod, hpos.ne']

theorem classify_finalize_ne_anomaly (r x : Nat) (hx : 0 < x) :
    classify (finalizeLeaf r x) x ≠ Classification.anomaly := by
  have h := classify_gcd (r / x) x hx
  unfold finalizeLeaf
  rw [h]
  split
  · simp
  · split <;> simp

theorem classify_eq_anomaly_iff (r x : Nat) :
    classify r x = Classification.anomaly ↔ r ≠ 1 ∧ (r = 0 ∨ x % r ≠ 0) := by
  unfold classify
  split
  · split
    · simp_all
    · split <;> simp_all
  · simp_all

theorem false_positives_partC :
    ∀ rs xs : List Nat, (∀ x ∈ xs, 0 < x) → false_positives (partC rs xs) xs = 0
  | [], xs, _ => by simp [false_positives, partC]
  | _ :: _, [], _ => by simp [false_positives, partC]
  | r :: rs, x :: xs, h => by
      have hx : 0 < x := h x (by simp)
      have hpos : 0 < finalizeLeaf r x := Nat.gcd_pos_of_pos_right _ hx
      have hmod : x % finalizeLeaf r x = 0 :=
        Nat.mod_eq_zero_of_dvd (Nat.gcd_dvd_right _ x)
      have ih := false_positives_partC rs xs (fun a ha => h a (by simp [ha]))
      simp only [false_positives, partC, List.zip_cons_cons, List.map_cons,
        List.countP_cons] at ih ⊢
      rw [ih]
      simp [hmod, hpos.ne']

theorem classifyLoop_partC_no_anomaly :
    ∀ rs xs : List Nat, (∀ x ∈ xs, 0 < x) →
      ∀ c ∈ classifyLoop (partC rs xs) xs, c ≠ Classification.anomaly
  | [], xs, _ => by simp [classifyLoop, partC]
  | _ :: _, [], _ => by simp [classifyLoop, partC]
  | r :: rs, x :: xs, h => by
      intro c hc
      simp only [classifyLoop, partC, List.zip_cons_cons, List.map_cons,
        List.mem_cons] at hc
      rcases hc with rfl | hc
      · exact classify_finalize_ne_anomaly r x (h x (by simp))
      · exact classifyLoop_partC_no_anomaly rs xs (fun a ha => h a (by simp [ha])) c
          (by simpa [classifyLoop, partC] using hc)

theorem false_positives_eq_countP :
    ∀ rs xs : List Nat,
      false_positives rs xs
        = (classifyLoop rs xs).countP fun c => c = Classification.anomaly := by
  intro rs xs
  unfold false_positives classifyLoop
  rw [List.countP_map]
  induction rs.zip xs with
  | nil => rfl
  | cons p ps ih =>
      simp only [List.countP_cons, ih, Function.comp_apply]
      congr 1
      by_cases hp : classify p.1 p.2 = Classification.anomaly
      · rw [if_pos (by simpa using (classify_eq_anomaly_iff p.1 p.2).mp hp),
          if_pos (by simpa using hp)]
      · rw [if_neg (by simpa using hp ∘ (classify_eq_anomaly_iff p.1 p.2).mpr),
          if_neg (by simpa using hp)]

/-! Correctness of the remainder tree: every leaf remainder is congruent to
the grand product Z modulo the square of its own modulus; when the leaf
level actually went through a reduction step (n ≥ 2) it is moreover the
canonical representative Z mod Xᵢ². -/

theorem remStep_spec (Z : Nat) :
    ∀ xs rs : List Nat, (∀ x ∈ xs, 0 < x) →
      List.Forall₂ (fun r p => r ≡ Z [MOD p * p]) rs (step xs) →
      List.Forall₂ (fun r x => r ≡ Z [MOD x * x] ∧ r < x * x) (remStep rs xs) xs
  | [], rs, _, h => by
      simp only [step] at h
      cases h
      exact List.Forall₂.nil
  | [x], rs, hpos, h => by
      simp only [step] at h
      cases h with
      | cons hr htail =>
        cases htail
        have hx : 0 < x := hpos x (by simp)
        refine List.Forall₂.cons ⟨?_, ?_⟩ List.Forall₂.nil
        · exact (Nat.mod_modEq _ _).trans hr
        · exact Nat.mod_lt _ (Nat.mul_pos hx hx)
  | x :: y :: rest, rs, hpos, h => by
      simp only [step] at h
      cases h with
      | cons hr htail =>
        have hx : 0 < x := hpos x (by simp)
        have hy : 0 < y := hpos y (by simp)
        have hxd : x * x ∣ x * y * (x * y) :=
          mul_dvd_mul (dvd_mul_right x y) (dvd_mul_right x y)
        have hyd : y * y ∣ x * y * (x * y) :=
          mul_dvd_mul (dvd_mul_left y x) (dvd_mul_left y x)
        refine List.Forall₂.cons ⟨?_, ?_⟩ (List.Forall₂.cons ⟨?_, ?_⟩ ?_)
        · exact (Nat.mod_modEq _ _).trans (hr.of_dvd hxd)
        · exact Nat.mod_lt _ (Nat.mul_pos hx hx)
        · exact (Nat.mod_modEq _ _).trans (hr.of_dvd hyd)
        · exact Nat.mod_lt _ (Nat.mul_pos hy hy)
        · exact remStep_spec Z rest _ (fun a ha => hpos a (by simp [ha])) htail

theorem remainders_squares_spec (l : List Nat) :
    (∀ x ∈ l, 0 < x) →
    List.Forall₂ (fun r x => r ≡ l.prod [MOD x * x] ∧ (2 ≤ l.length → r < x * x))
      (remainders_squares l) l := by
  induction l using remainders_squares.induct with
  | case1 l hlen =>
      intro _
      rw [remainders_squares, dif_pos hlen]
      rcases l with _ | ⟨a, _ | ⟨b, t⟩⟩
      · exact List.Forall₂.nil
      · refine List.Forall₂.cons ⟨?_, ?_⟩ List.Forall₂.nil
        · simp [Nat.ModEq.refl]
        · intro hc; simp at hc
      · simp at hlen
  | case2 l hlen ih =>
      intro hpos
      rw [remainders_squares, dif_neg hlen]
      have hcong :
          List.Forall₂ (fun r p => r ≡ l.prod [MOD p * p])
            (remainders_squares (step l)) (step l) :=
        (ih (step_pos l hpos)).imp (fun a b hab => step_prod l ▸ hab.1)
      exact (remStep_spec l.prod l (remainders_squares (step l)) hpos hcong).imp
        (fun a b hab => ⟨hab.1, fun _ => hab.2⟩)

/-! Claim theorems. -/

/-- C1: For every leaf with modulus X > 0 and leaf remainder R, part (C)
computes Q = R / X and D = gcd(Q, X), and the results loop classifies the
leaf as clean when D = 1, as duplicate when D = X, and otherwise as
compromised with factor_p = D and factor_q = X / D. -/
theorem C1_finalizer_classification (R X : Nat) (h : 0 < X) :
    finalizeLeaf R X = Nat.gcd (R / X) X ∧
    classify (finalizeLeaf R X) X =
      if Nat.gcd (R / X) X = 1 then Classification.clean
      else if Nat.gcd (R / X) X = X then Classification.duplicate
      else Classification.compromised (Nat.gcd (R / X) X) (X / Nat.gcd (R / X) X) :=
  ⟨rfl, classify_gcd (R / X) X h⟩

theorem C1_finalizer_classification_witness :
    (0 < 15) ∧
    (finalizeLeaf 90 15 = Nat.gcd (90 / 15) 15 ∧
     classify (finalizeLeaf 90 15) 15 =
       if Nat.gcd (90 / 15) 15 = 1 then Classification.clean
       else if Nat.gcd (90 / 15) 15 = 15 then Classification.duplicate
       else Classification.compromised (Nat.gcd (90 / 15) 15) (15 / Nat.gcd (90 / 15) 15)) :=
  ⟨by decide, C1_finalizer_classification 90 15 (by decide)⟩

/-- C2 is false as stated: with modulus X = 15 and leaf remainder R = 16,
R does not divide evenly by X, yet the leaf is classified clean and the
false-positive (anomaly) tally stays 0 — the nonzero division remainder is
silently discarded by the truncated division of part (C). -/
theorem C2_counterexample :
    16 % 15 ≠ 0 ∧
    classify (finalizeLeaf 16 15) 15 = Classification.clean ∧
    false_positives (partC [16] [15]) [15] = 0 := by decide

/-- C2 (amended): when the leaf remainder R does not divide evenly by the
modulus X > 0, the leaf is never surfaced as an anomaly; the division
remainder is discarded and the leaf is classified exactly as if the
remainder were rounded down to the nearest multiple of X. -/
theorem C2_inexact_division_silent (R X : Nat) (hx : 0 < X) ( _hnd : ¬ X ∣ R) :
    classify (finalizeLeaf R X) X ≠ Classification.anomaly ∧
    finalizeLeaf R X = finalizeLeaf (X * (R / X)) X := by
  refine ⟨classify_finalize_ne_anomaly R X hx, ?_⟩
  unfold finalizeLeaf
  rw [Nat.mul_div_cancel_left _ hx]

theorem C2_inexact_division_silent_witness :
    (0 < 15) ∧ ¬ (15 : Nat) ∣ 16 ∧
    (classify (finalizeLeaf 16 15) 15 ≠ Classification.anomaly ∧
     finalizeLeaf 16 15 = finalizeLeaf (15 * (16 / 15)) 15) :=
  ⟨by decide, by decide, C2_inexact_division_silent 16 15 (by decide) (by decide)⟩

/-- C3 is false as stated: on the single positive modulus input [1] the leaf
remainder is the unreduced seed Z = 1 (the leaf is the root), while the
naive direct reduction Z mod X₀² = 1 mod 1 is 0. -/
theorem C3_counterexample :
    (remainders_squares [1]).getD 0 0 = 1 ∧
    List.prod [1] % (List.getD [1] 0 0 * List.getD [1] 0 0) = 0 ∧
    (remainders_squares [1]).getD 0 0
      ≠ List.prod [1] % (List.getD [1] 0 0 * List.getD [1] 0 0) := by
  rw [remainders_squares_single]
  decide

/-- C3 (amended): for every input of positive moduli and every leaf i, the
leaf remainder satisfies Rᵢ ≡ Z (mod Xᵢ²) where Z is the product of all
moduli; moreover Rᵢ equals the naive direct reduction Z mod Xᵢ² except in
the degenerate case n = 1 with X₁ = 1 (where the unreduced seed is
returned). -/
theorem C3_leaf_remainders (l : List Nat) (hpos : ∀ x ∈ l, 0 < x)
    (i : Nat) (hi : i < l.length) :
    (remainders_squares l).getD i 0 ≡ l.prod [MOD l.getD i 0 * l.getD i 0] ∧
    (2 ≤ l.length ∨ 2 ≤ l.getD i 0 →
      (remainders_squares l).getD i 0 = l.prod % (l.getD i 0 * l.getD i 0)) := by
  rcases Nat.lt_or_ge l.length 2 with h2 | h2
  · have h1 : l.length = 1 := by omega
    obtain ⟨a, rfl⟩ := List.length_eq_one.mp h1
    have hi0 : i = 0 := by omega
    subst hi0
    rw [remainders_squares_single]
    constructor
    · simp [Nat.ModEq.refl]
    · intro hc
      have ha2 : 2 ≤ a := by
        rcases hc with hc | hc
        · simp at hc
        · simpa using hc
      have hlt : a < a * a := by nlinarith
      simp [Nat.mod_eq_of_lt hlt]
  · have hspec := remainders_squares_spec l hpos
    have hlen : (remainders_squares l).length = l.length := hspec.length_eq
    have hi' : i < (remainders_squares l).length := by omega
    have hget := hspec.get hi' hi
    have e1 : (remainders_squares l).getD i 0 = (remainders_squares l).get ⟨i, hi'⟩ := by
      rw [List.getD_eq_getElem _ 0 hi']; simp
    have e2 : l.getD i 0 = l.get ⟨i, hi⟩ := by
      rw [List.getD_eq_getElem _ 0 hi]; simp
    rw [e1, e2]
    refine ⟨hget.1, fun _ => ?_⟩
    have hmods : (remainders_squares l).get ⟨i, hi'⟩ % (l.get ⟨i, hi⟩ * l.get ⟨i, hi⟩)
        = l.prod % (l.get ⟨i, hi⟩ * l.get ⟨i, hi⟩) := hget.1
    rw [← hmods, Nat.mod_eq_of_lt (hget.2 h2)]

theorem C3_leaf_remainders_witness :
    (∀ x ∈ [15, 21], 0 < x) ∧ ((0 : Nat) < List.length [15, 21]) ∧
    ((remainders_squares [15, 21]).getD 0 0
        ≡ List.prod [15, 21] [MOD List.getD [15, 21] 0 0 * List.getD [15, 21] 0 0] ∧
     (2 ≤ List.length [15, 21] ∨ 2 ≤ List.getD [15, 21] 0 0 →
       (remainders_squares [15, 21]).getD 0 0
         = List.prod [15, 21] % (List.getD [15, 21] 0 0 * List.getD [15, 21] 0 0))) :=
  ⟨by decide, by decide, C3_leaf_remainders [15, 21] (by decide) 0 (by decide)⟩

/-- C4: the product tree built bottom-up by `step` (entry j of a derived
level is the product of entries 2j and 2j+1 of the previous one, an unpaired
final entry carried forward unchanged, each derived level having
⌈previous / 2⌉ entries) has a root equal to the exact product of all n ≥ 1
leaves. -/
theorem C4_product_tree_root (l : List Nat) (h : 1 ≤ l.length) :
    tree_root l = [l.prod] ∧ (step l).length = (l.length + 1) / 2 :=
  ⟨tree_root_eq l (List.length_pos.mp h), step_length l⟩

theorem C4_product_tree_root_witness :
    (1 ≤ List.length [6, 10, 15]) ∧
    (tree_root [6, 10, 15] = [List.prod [6, 10, 15]] ∧
     (step [6, 10, 15]).length = (List.length [6, 10, 15] + 1) / 2) :=
  ⟨by decide, C4_product_tree_root [6, 10, 15] (by decide)⟩

/-- C5: on the input {15, 21} the full pipeline classifies leaf 0 as
compromised with factor_p = 3 and factor_q = 5, and leaf 1 as compromised
with factor_p = 3 and factor_q = 7. -/
theorem C5_scenario_A :
    run_batchgcd [15, 21] =
      [Classification.compromised 3 5, Classification.compromised 3 7] := by
  rw [run_batchgcd, remainders_squares_pair]
  decide

/-- C6: on the input {91, 91} (two identical moduli) the full pipeline
classifies both leaves as duplicate. -/
theorem C6_scenario_C :
    run_batchgcd [91, 91] = [Classification.duplicate, Classification.duplicate] := by
  rw [run_batchgcd, remainders_squares_pair]
  decide

/-- C7: on an input of exactly one positive modulus the builder returns tree
height 0 and the single leaf is classified clean. -/
theorem C7_scenario_D (x : Nat) (h : 0 < x) :
    product_tree [x] = 0 ∧ run_batchgcd [x] = [Classification.clean] := by
  refine ⟨product_tree_single x, ?_⟩
  rw [run_batchgcd, remainders_squares_single]
  simp [partC, finalizeLeaf, classifyLoop, Nat.div_self h, classify]

theorem C7_scenario_D_witness :
    (0 < 91) ∧ (product_tree [91] = 0 ∧ run_batchgcd [91] = [Classification.clean]) :=
  ⟨by decide, C7_scenario_D 91 (by decide)⟩

/-- C8: per-leaf classification anomalies are tallied in aggregate by the
false_positives counter and do not abort the loop: with equally long arrays
every leaf receives exactly one classification, and the tally equals the
number of anomaly-classified leaves. -/
theorem C8_anomalies_aggregated (rs xs : List Nat) (h : rs.length = xs.length) :
    (classifyLoop rs xs).length = xs.length ∧
    false_positives rs xs
      = (classifyLoop rs xs).countP (fun c => c = Classification.anomaly) := by
  refine ⟨?_, false_positives_eq_countP rs xs⟩
  simp [classifyLoop, h]

theorem C8_anomalies_aggregated_witness :
    (List.length [2, 3] = List.length [15, 15]) ∧
    ((classifyLoop [2, 3] [15, 15]).length = List.length [15, 15] ∧
     false_positives [2, 3] [15, 15]
       = (classifyLoop [2, 3] [15, 15]).countP (fun c => c = Classification.anomaly)) ∧
    false_positives [2, 3] [15, 15] = 1 :=
  ⟨by decide, C8_anomalies_aggregated [2, 3] [15, 15] (by decide), by decide⟩

/-- C9: the numeric base used to parse the input moduli is 16 by default and
10 exactly when the base10 option flag is set. -/
theorem C9_base_selection : base false = 16 ∧ base true = 10 := by decide

/-- C10: for inputs whose moduli are all positive, the anomaly branch of the
results loop is unreachable: the part-(C) value gcd(R / X, X) is at least 1
and divides X, so the condition (R = 0 or X mod R ≠ 0) never holds, no leaf
is classified anomaly, and the false-positive count is always 0. -/
theorem C10_anomaly_unreachable (rs xs : List Nat) (hpos : ∀ x ∈ xs, 0 < x) :
    (∀ r : Nat, ∀ x ∈ xs, 1 ≤ finalizeLeaf r x ∧ x % finalizeLeaf r x = 0) ∧
    false_positives (partC rs xs) xs = 0 ∧
    ∀ c ∈ classifyLoop (partC rs xs) xs, c ≠ Classification.anomaly := by
  refine ⟨?_, false_positives_partC rs xs hpos, classifyLoop_partC_no_anomaly rs xs hpos⟩
  intro r x hx
  exact ⟨Nat.gcd_pos_of_pos_right _ (hpos x hx),
    Nat.mod_eq_zero_of_dvd (Nat.gcd_dvd_right _ x)⟩

theorem C10_anomaly_unreachable_witness :
    (∀ x ∈ [15, 21], 0 < x) ∧
    ((∀ r : Nat, ∀ x ∈ [15, 21], 1 ≤ finalizeLeaf r x ∧ x % finalizeLeaf r x = 0) ∧
     false_positives (partC [90, 315] [15, 21]) [15, 21] = 0 ∧
     ∀ c ∈ classifyLoop (partC [90, 315] [15, 21]) [15, 21],
       c ≠ Classification.anomaly) :=
  ⟨by decide, C10_anomaly_unreachable [90, 315] [15, 21] (by decide)⟩

end BatchGCD
